import Mathlib

/-!
Shallow embedding of the `fswhy` repository: the file-tree data model
(`src/model.rs`) and the visibility / index engine (`src/view.rs`).

Paths are modelled abstractly as lists of naturals ordered
lexicographically, matching the total order `PathBuf::cmp` provides.
The `Node` struct of the source (`struct Node { path, size, kind }` with
`enum NodeKind { File, Directory(DirProperty) }`) is flattened into a
single inductive with one constructor per `NodeKind` variant, each
carrying the common `path` and `size` fields.

The minimal model module used by `src/view.rs` and `src/main.rs`
(declared there as `mod model;` / `mod scan;`, providing the `expanded`
flag and the methods `is_dir`, `is_expanded`, `toggle`, `children`,
`children_mut`) is not present under `src/`; those parts are modelled
from the spec, as marked on each definition.
-/

/-- A filesystem path, abstracted to a list of naturals compared
lexicographically (as `PathBuf::cmp` compares paths). -/
abbrev FPath := List Nat

/-- Lexicographic comparison of paths, the embedding of `a.path.cmp(&b.path)`
in `src/model.rs`. -/
def pathCmp : FPath → FPath → Ordering
  | [], [] => .eq
  | [], _ :: _ => .lt
  | _ :: _, [] => .gt
  | a :: as, b :: bs =>
    if a < b then .lt else if b < a then .gt else pathCmp as bs

/-- The tree node of `src/model.rs`: a `file` carries its `path` and byte
`size`; a `directory` carries its `path`, aggregated `size` and its ordered
`children`. The `expanded` flag on directories is
Modelled from the spec: the minimal model module used by `src/view.rs`
(not under `src/`) stores a mutable boolean expand flag per directory
(spec section 3, "kind: variant over \x7bFile, Directory(children, expanded)\x7d"). -/
inductive Node : Type where
  | file (path : FPath) (size : Nat)
  | directory (path : FPath) (size : Nat) (expanded : Bool) (children : List Node)

/-- The `path()` accessor of `Node`. -/
def Node.path : Node → FPath
  | .file p _ => p
  | .directory p _ _ _ => p

/-- The `size()` accessor of `Node`. -/
def Node.size : Node → Nat
  | .file _ s => s
  | .directory _ s _ _ => s

/-- Modelled from the spec: `Node::is_dir` of the minimal model module
(not under `src/`) — true exactly on the Directory variant. -/
def Node.is_dir : Node → Bool
  | .file _ _ => false
  | .directory _ _ _ _ => true

/-- Modelled from the spec: `Node::is_expanded` of the minimal model module
(not under `src/`) — a file has no expanded flag (reported false), a
directory reports its flag. -/
def Node.is_expanded : Node → Bool
  | .file _ _ => false
  | .directory _ _ e _ => e

/-- Modelled from the spec: `Node::toggle` of the minimal model module
(not under `src/`) — flips this directory's expanded flag and nothing
else; a file is unchanged. -/
def Node.toggle : Node → Node
  | .file p s => .file p s
  | .directory p s e cs => .directory p s (!e) cs

/-- Modelled from the spec: `Node::children` of the minimal model module
(not under `src/`) — `Some` of the child sequence for a directory,
`None` for a file (as used by `if let Some(children) = node.children()`
in `src/view.rs`). -/
def Node.children : Node → Option (List Node)
  | .file _ _ => none
  | .directory _ _ _ cs => some cs

/-- One row of the visible projection, `struct ViewItem` of `src/view.rs`
(the Rust `node: &Node` reference is embedded by value). -/
structure ViewItem : Type where
  index : Option Nat
  node : Node
  depth : Nat

mutual

/-- The recursive worker `scan_recursive` of `src/view.rs`: the two `&mut`
parameters (ordinal counter, output vector) are threaded explicitly and
returned. A directory takes the current counter as its ordinal and bumps
the counter before its item is pushed; children are walked only when the
node is an expanded directory. -/
def scan_recursive : Node → Nat → Nat → List ViewItem → Nat × List ViewItem
  | n@(.file _ _), depth, counter, out =>
      (counter, out ++ [⟨none, n, depth⟩])
  | n@(.directory _ _ e cs), depth, counter, out =>
      let out1 := out ++ [⟨some counter, n, depth⟩]
      let c1 := counter + 1
      if e then scan_children cs (depth + 1) c1 out1 else (c1, out1)

/-- The `for child in children` loop inside `scan_recursive`. -/
def scan_children : List Node → Nat → Nat → List ViewItem → Nat × List ViewItem
  | [], _, counter, out => (counter, out)
  | n :: ns, depth, counter, out =>
      let r := scan_recursive n depth counter out
      scan_children ns depth r.1 r.2

end

/-- `build_visible_list` of `src/view.rs`: run `scan_recursive` from the
root at depth 0 with a fresh ordinal counter and return the rows. -/
def build_visible_list (root : Node) : List ViewItem :=
  (scan_recursive root 0 0 []).2

mutual

/-- The recursive worker `find_and_toggle` of `src/view.rs`: returns the
(possibly mutated) node, the final counter, and whether the target ordinal
was found. A file returns false at once; a directory matching the target
is toggled; otherwise the counter is bumped and, if the directory is
expanded, the children are searched in order. -/
def find_and_toggle : Node → Nat → Nat → Node × Nat × Bool
  | n@(.file _ _), counter, _ => (n, counter, false)
  | .directory p s e cs, counter, target =>
      if counter = target then (.directory p s (!e) cs, counter, true)
      else
        let c1 := counter + 1
        if e then
          let r := toggle_children cs c1 target
          (.directory p s e r.1, r.2.1, r.2.2)
        else (.directory p s e cs, c1, false)

/-- The `for child in children` loop inside `find_and_toggle`, with its
early `return true` on the first successful child. -/
def toggle_children : List Node → Nat → Nat → List Node × Nat × Bool
  | [], counter, _ => ([], counter, false)
  | n :: ns, counter, target =>
      let r := find_and_toggle n counter target
      if r.2.2 then (r.1 :: ns, r.2.1, true)
      else
        let rs := toggle_children ns r.2.1 target
        (r.1 :: rs.1, rs.2.1, rs.2.2)

end

/-- `toggle_by_index` of `src/view.rs`: search from the root with a counter
starting at 0; the mutation of `root` through `&mut` is embedded by
returning the updated root next to the boolean result. -/
def toggle_by_index (root : Node) (target : Nat) : Node × Bool :=
  let r := find_and_toggle root 0 target
  (r.1, r.2.2)

/-!
Specification-side definitions. These restate, in direct structural
form, the traversal the spec describes (depth-first pre-order, pruned at
collapsed directories, directory-only ordinals); the claim theorems
compare the source embeddings above against them.
-/

mutual

/-- The nodes the spec calls visible, with their depths: a node is
emitted, and its children follow only when it is an expanded directory
(pre-order, pruned at collapsed directories). -/
def visibleNodes : Node → Nat → List (Node × Nat)
  | n@(.file _ _), d => [(n, d)]
  | n@(.directory _ _ e cs), d =>
      (n, d) :: (if e then visibleNodesList cs (d + 1) else [])

/-- `visibleNodes` over a child list, in the fixed child order. -/
def visibleNodesList : List Node → Nat → List (Node × Nat)
  | [], _ => []
  | n :: ns, d => visibleNodes n d ++ visibleNodesList ns d

end

mutual

/-- The number of visible directories of a tree: the root itself when it
is a directory, plus, when it is expanded, those of its children. -/
def visDirs : Node → Nat
  | .file _ _ => 0
  | .directory _ _ e cs => 1 + (if e then visDirsList cs else 0)

/-- `visDirs` summed over a child list. -/
def visDirsList : List Node → Nat
  | [] => 0
  | n :: ns => visDirs n + visDirsList ns

end

mutual

/-- The visible directories themselves, in pre-order. -/
def visibleDirs : Node → List Node
  | .file _ _ => []
  | n@(.directory _ _ e cs) => n :: (if e then visibleDirsList cs else [])

/-- `visibleDirs` over a child list. -/
def visibleDirsList : List Node → List Node
  | [] => []
  | n :: ns => visibleDirs n ++ visibleDirsList ns

end

/-- Count of directory entries in a visible-row list. -/
def dirCount : List (Node × Nat) → Nat
  | [] => 0
  | x :: xs => (if x.1.is_dir then 1 else 0) + dirCount xs

/-- Ordinal assignment the spec describes: walking the visible rows in
order, a directory receives the running counter (then bumps it), a file
receives no ordinal. -/
def assignOrdinals : List (Node × Nat) → Nat → List ViewItem
  | [], _ => []
  | (n, d) :: rest, c =>
      if n.is_dir then ⟨some c, n, d⟩ :: assignOrdinals rest (c + 1)
      else ⟨none, n, d⟩ :: assignOrdinals rest c

/-- Tree positions: a node is addressed by the list of child indices on
the way down from the root. -/
def nodeAt : List Nat → Node → Option Node
  | [], n => some n
  | _ :: _, .file _ _ => none
  | i :: q, .directory _ _ _ cs => (cs[i]?).bind fun c => nodeAt q c

/-- Apply a function to the element at one index of a list, leaving every
other element in place. -/
def listModify (f : Node → Node) : Nat → List Node → List Node
  | _, [] => []
  | 0, c :: cs => f c :: cs
  | i + 1, c :: cs => c :: listModify f i cs

/-- Flip the expanded flag of the node at one tree position, leaving every
other node untouched (a file there, or a dangling position, changes
nothing). -/
def flipAt : List Nat → Node → Node
  | [], n => n.toggle
  | _ :: _, .file p s => .file p s
  | i :: q, .directory p s e cs => .directory p s e (listModify (flipAt q) i cs)

/-- The expanded flag of the node at a tree position (a file reports
false, a dangling position reports nothing). -/
def expandedAt (q : List Nat) (n : Node) : Option Bool :=
  (nodeAt q n).map Node.is_expanded

/-- `nodeAt` for a position rooted in a child list: the head index picks
the child, the rest of the position descends inside it. -/
def nodeAtList : List Nat → List Node → Option Node
  | [], _ => none
  | i :: q, ns => (ns[i]?).bind fun c => nodeAt q c

/-- `flipAt` for a position rooted in a child list. -/
def flipInList : List Nat → List Node → List Node
  | [], ns => ns
  | i :: q, ns => listModify (flipAt q) i ns

mutual

/-- Erase every expanded flag of a tree, keeping paths, sizes and the
child structure: two trees with equal erasures differ at most in their
expand flags. -/
def stripExpanded : Node → Node
  | .file p s => .file p s
  | .directory p s _ cs => .directory p s false (stripExpandedList cs)

/-- `stripExpanded` over a child list. -/
def stripExpandedList : List Node → List Node
  | [] => []
  | c :: cs => stripExpanded c :: stripExpandedList cs

end

/-- Bump the leading child index of a tree position. -/
def bumpHead : List Nat → List Nat
  | [] => []
  | i :: q => (i + 1) :: q

mutual

/-- The tree positions of the visible directories, in the same pre-order
the ordinals are assigned in: position `k` in this list is where ordinal
`k` lives. -/
def visDirPositions : Node → List (List Nat)
  | .file _ _ => []
  | .directory _ _ e cs => [] :: (if e then visDirPositionsList cs else [])

/-- `visDirPositions` over a child list, offsetting each child's
positions by its index. -/
def visDirPositionsList : List Node → List (List Nat)
  | [] => []
  | n :: ns =>
      (visDirPositions n).map (fun q => 0 :: q)
        ++ (visDirPositionsList ns).map bumpHead

end

mutual

/-- Flip the expanded flag of the `j`-th visible directory (pre-order,
pruned at collapsed directories), written structurally with subtree
counts instead of a threaded counter. -/
def toggleNth : Node → Nat → Node
  | .file p s, _ => .file p s
  | .directory p s e cs, 0 => .directory p s (!e) cs
  | .directory p s e cs, j + 1 =>
      if e then .directory p s e (toggleNthList cs j) else .directory p s e cs

/-- `toggleNth` over a child list: the first child holding enough visible
directories receives the flip. -/
def toggleNthList : List Node → Nat → List Node
  | [], _ => []
  | n :: ns, j =>
      if j < visDirs n then toggleNth n j :: ns
      else n :: toggleNthList ns (j - visDirs n)

end

mutual

/-- Every directory of the tree, the root included, is collapsed. -/
def allCollapsed : Node → Bool
  | .file _ _ => true
  | .directory _ _ e cs => !e && allCollapsedList cs

/-- `allCollapsed` over a child list. -/
def allCollapsedList : List Node → Bool
  | [] => true
  | c :: cs => allCollapsed c && allCollapsedList cs

end

/-!
Embedding of the scanner `Node::scan_with_progress` of `src/model.rs`.
The filesystem the scanner walks is abstracted as a tree `Fs`: each
constructor records how the OS answers for one path. `statErr` is a path
whose `std::fs::metadata` call fails; `readErr` is a directory whose
metadata succeeds but whose `std::fs::read_dir` call fails; a `dir`
carries the items its `read_dir` iterator yields, where a `none` item
models an iterator item whose `entry?` is an `Err` (no entry could be
retrieved). Progress counting and logging write only to stderr and are
dropped from the embedding (they do not touch the resulting tree).
-/

/-- An abstract filesystem subtree, as answered by the OS. -/
inductive Fs : Type where
  | file (path : FPath) (len : Nat)
  | dir (path : FPath) (entries : List (Option Fs))
  | statErr (path : FPath)
  | readErr (path : FPath)

/-- The child comparator of `src/model.rs` (`children.sort_by`):
directories sort before files, entries of the same kind by path. -/
def childCmp (a b : Node) : Ordering :=
  match a, b with
  | .directory _ _ _ _, .file _ _ => .lt
  | .file _ _, .directory _ _ _ _ => .gt
  | _, _ => pathCmp a.path b.path

/-- Insert a node into an already sorted list, after every entry that
does not compare greater than it (so equal entries keep their relative
order, as Rust's stable `sort_by` keeps it). -/
def insertSorted (x : Node) : List Node → List Node
  | [] => [x]
  | y :: ys => if childCmp x y = .gt then y :: insertSorted x ys else x :: y :: ys

/-- The stable sort `children.sort_by(..)` of `src/model.rs`, embedded as
a stable insertion sort: for a total preorder every stable sort returns
the same list. -/
def sortChildren : List Node → List Node
  | [] => []
  | x :: xs => insertSorted x (sortChildren xs)

mutual

/-- `Node::scan_with_progress` of `src/model.rs`: a failed metadata or
`read_dir` call is an error; a file node carries its reported length; a
directory scans its entries, sorts the survivors and sums their sizes.
The `expanded` flag of a fresh directory is false (spec section 4.1:
default collapsed). -/
def scanFs : Fs → Except Unit Node
  | .statErr _ => .error ()
  | .readErr _ => .error ()
  | .file p len => .ok (.file p len)
  | .dir p entries =>
      match scanEntries entries with
      | .error u => .error u
      | .ok children =>
          let sorted := sortChildren children
          let total := (sorted.map Node.size).sum
          .ok (.directory p total false sorted)

/-- The `for entry in read_dir` loop of `scan_with_progress`: an
`entry?` failure propagates out of the whole directory; an entry whose
recursive scan fails is skipped and the loop continues. -/
def scanEntries : List (Option Fs) → Except Unit (List Node)
  | [] => .ok []
  | none :: _ => .error ()
  | some fs :: rest =>
      match scanFs fs with
      | .ok child =>
          match scanEntries rest with
          | .ok cs => .ok (child :: cs)
          | .error u => .error u
      | .error _ => scanEntries rest

end

mutual

/-- The size invariant the spec states: each directory's size is the sum
of its direct children's sizes, recursively to the leaves. -/
def sizeOk : Node → Bool
  | .file _ _ => true
  | .directory _ s _ cs => (s == (cs.map Node.size).sum) && sizeOkList cs

/-- `sizeOk` over a child list. -/
def sizeOkList : List Node → Bool
  | [] => true
  | c :: cs => sizeOk c && sizeOkList cs

end

/-- The sibling-order invariant the spec states, for one child list: no
file precedes a directory, and entries of the same kind have
non-decreasing paths. Stated over all pairs in order, which is the same
as directories-first plus sortedness inside each of the two groups. -/
def childrenOrdered (cs : List Node) : Prop :=
  cs.Pairwise fun a b =>
    (a.is_dir = false → b.is_dir = false) ∧
    (a.is_dir = b.is_dir → pathCmp a.path b.path ≠ .gt)

mutual

/-- The sibling-order invariant, recursively at every directory. -/
def sortedTree : Node → Prop
  | .file _ _ => True
  | .directory _ _ _ cs => childrenOrdered cs ∧ sortedTreeList cs

/-- `sortedTree` over a child list. -/
def sortedTreeList : List Node → Prop
  | [] => True
  | c :: cs => sortedTree c ∧ sortedTreeList cs

end

/-- The scans that fail: a path whose metadata cannot be read, a
directory whose listing cannot be opened, and a directory whose listing
iteration yields an error item. -/
def scanFails : Fs → Bool
  | .statErr _ => true
  | .readErr _ => true
  | .file _ _ => false
  | .dir _ es => es.any fun e => e.isNone

/-!
Fixture trees used by the concrete witnesses: the scenario of spec
section 8 (a root holding directories `a` and `b` and a 10-byte file,
with a 2048-byte file inside `b`).
-/

/-- The children of the scenario root: directories `a` and `b` (holding
one 2048-byte file) and a 10-byte file, all collapsed. -/
def egChildren : List Node :=
  [ .directory [0, 1] 0 false []
  , .directory [0, 2] 2048 false [.file [0, 2, 1] 2048]
  , .file [0, 3] 10 ]

/-- The scenario tree of spec section 8, with the root expanded. -/
def egTree : Node :=
  .directory [0] 2058 true egChildren

/-- `egTree` after directory `b` (ordinal 2) has been toggled open. -/
def egTreeB : Node :=
  .directory [0] 2058 true
    [ .directory [0, 1] 0 false []
    , .directory [0, 2] 2048 true [.file [0, 2, 1] 2048]
    , .file [0, 3] 10 ]

/-- The scenario filesystem of spec section 8, with the entries listed
out of order and one entry whose scan fails. -/
def egFs : Fs :=
  .dir [0]
    [ some (.file [0, 3] 10)
    , some (.dir [0, 2] [some (.file [0, 2, 1] 2048)])
    , some (.statErr [0, 9])
    , some (.dir [0, 1] []) ]

/-- The tree `scanFs` produces from `egFs`: children sorted directories
first then by path, sizes aggregated, every flag collapsed. -/
def egScanned : Node :=
  .directory [0] 2058 false
    [ .directory [0, 1] 0 false []
    , .directory [0, 2] 2048 false [.file [0, 2, 1] 2048]
    , .file [0, 3] 10 ]

/-!
Lemmas: the counter-threaded walks of `src/view.rs` against the
structural spec traversals.
-/

theorem dirCount_append (xs ys : List (Node × Nat)) :
    dirCount (xs ++ ys) = dirCount xs + dirCount ys := by
  induction xs with
  | nil => simp [dirCount]
  | cons x xs ih => simp [dirCount, ih]; omega

mutual

theorem dirCount_visibleNodes : ∀ (n : Node) (d : Nat),
    dirCount (visibleNodes n d) = visDirs n
  | .file p s, d => by simp [visibleNodes, visDirs, dirCount, Node.is_dir]
  | .directory p s e cs, d => by
      cases e with
      | false => simp [visibleNodes, visDirs, dirCount, Node.is_dir]
      | true =>
          have h := dirCount_visibleNodesList cs (d + 1)
          simp [visibleNodes, visDirs, dirCount, Node.is_dir, h]

theorem dirCount_visibleNodesList : ∀ (ns : List Node) (d : Nat),
    dirCount (visibleNodesList ns d) = visDirsList ns
  | [], d => by simp [visibleNodesList, visDirsList, dirCount]
  | n :: ns, d => by
      have h1 := dirCount_visibleNodes n d
      have h2 := dirCount_visibleNodesList ns d
      simp [visibleNodesList, visDirsList, dirCount_append, h1, h2]

end

theorem assignOrdinals_append (xs ys : List (Node × Nat)) (c : Nat) :
    assignOrdinals (xs ++ ys) c
      = assignOrdinals xs c ++ assignOrdinals ys (c + dirCount xs) := by
  induction xs generalizing c with
  | nil => simp [assignOrdinals, dirCount]
  | cons x xs ih =>
      obtain ⟨n, d⟩ := x
      by_cases h : n.is_dir
      · have hc : c + 1 + dirCount xs = c + (1 + dirCount xs) := by omega
        simp [assignOrdinals, dirCount, h, ih, hc]
      · simp [assignOrdinals, dirCount, h, ih]

mutual

theorem scan_recursive_eq : ∀ (n : Node) (d c : Nat) (out : List ViewItem),
    scan_recursive n d c out
      = (c + visDirs n, out ++ assignOrdinals (visibleNodes n d) c)
  | .file p s, d, c, out => by
      simp [scan_recursive, visDirs, visibleNodes, assignOrdinals, Node.is_dir]
  | .directory p s e cs, d, c, out => by
      cases e with
      | false => simp [scan_recursive, visDirs, visibleNodes, assignOrdinals, Node.is_dir]
      | true =>
          have h := scan_children_eq cs (d + 1) (c + 1)
            (out ++ [⟨some c, .directory p s true cs, d⟩])
          simp [scan_recursive, visDirs, visibleNodes, assignOrdinals, Node.is_dir, h]
          omega

theorem scan_children_eq : ∀ (ns : List Node) (d c : Nat) (out : List ViewItem),
    scan_children ns d c out
      = (c + visDirsList ns, out ++ assignOrdinals (visibleNodesList ns d) c)
  | [], d, c, out => by simp [scan_children, visDirsList, visibleNodesList, assignOrdinals]
  | n :: ns, d, c, out => by
      have h1 := scan_recursive_eq n d c out
      have h2 := scan_children_eq ns d (c + visDirs n)
        (out ++ assignOrdinals (visibleNodes n d) c)
      simp [scan_children, h1, h2, visDirsList, visibleNodesList,
        assignOrdinals_append, dirCount_visibleNodes]
      omega

end

theorem build_visible_list_eq (root : Node) :
    build_visible_list root = assignOrdinals (visibleNodes root 0) 0 := by
  simp [build_visible_list, scan_recursive_eq]

mutual

theorem find_and_toggle_miss : ∀ (n : Node) (c t : Nat),
    t < c ∨ c + visDirs n ≤ t →
    find_and_toggle n c t = (n, c + visDirs n, false)
  | .file p s, c, t, h => by simp [find_and_toggle, visDirs]
  | .directory p s e cs, c, t, h => by
      simp only [visDirs] at h
      have hne : ¬ c = t := by cases e <;> simp at h <;> omega
      cases e with
      | false => simp [find_and_toggle, visDirs, hne]
      | true =>
          have h2 := toggle_children_miss cs (c + 1) t (by simp at h; omega)
          simp [find_and_toggle, visDirs, hne, h2]
          omega

theorem toggle_children_miss : ∀ (ns : List Node) (c t : Nat),
    t < c ∨ c + visDirsList ns ≤ t →
    toggle_children ns c t = (ns, c + visDirsList ns, false)
  | [], c, t, h => by simp [toggle_children, visDirsList]
  | n :: ns, c, t, h => by
      simp only [visDirsList] at h
      have h1 := find_and_toggle_miss n c t (by omega)
      have h2 := toggle_children_miss ns (c + visDirs n) t (by omega)
      simp [toggle_children, h1, h2, visDirsList]
      omega

end

theorem find_and_toggle_hit : ∀ (n : Node), ∀ (c t : Nat),
    c ≤ t → t < c + visDirs n →
    find_and_toggle n c t = (toggleNth n (t - c), t, true) := by
  refine @Node.rec
    (fun n => ∀ c t : Nat, c ≤ t → t < c + visDirs n →
      find_and_toggle n c t = (toggleNth n (t - c), t, true))
    (fun ns => ∀ c t : Nat, c ≤ t → t < c + visDirsList ns →
      toggle_children ns c t = (toggleNthList ns (t - c), t, true))
    ?_ ?_ ?_ ?_
  · intro p s c t h1 h2
    simp [visDirs] at h2
    omega
  · intro p s e cs ih c t h1 h2
    by_cases hct : c = t
    · rw [← hct, Nat.sub_self]
      simp [find_and_toggle, toggleNth]
    · have hlt : c < t := by omega
      have hsub : t - c = (t - (c + 1)) + 1 := by omega
      cases e with
      | false => simp [visDirs] at h2; omega
      | true =>
          simp only [visDirs, if_pos] at h2
          have h3 := ih (c + 1) t (by omega) (by omega)
          have e1 : toggleNth (Node.directory p s true cs) ((t - (c + 1)) + 1)
              = Node.directory p s true (toggleNthList cs (t - (c + 1))) := by
            simp [toggleNth]
          rw [hsub, e1]
          simp [find_and_toggle, hct, h3]
  · intro c t h1 h2
    simp [visDirsList] at h2
    omega
  · intro n ns ih1 ih2 c t h1 h2
    simp only [visDirsList] at h2
    by_cases hh : t < c + visDirs n
    · have h3 := ih1 c t h1 hh
      have h4 : t - c < visDirs n := by omega
      simp [toggle_children, h3, toggleNthList, h4]
    · have h3 := find_and_toggle_miss n c t (by omega)
      have h4 := ih2 (c + visDirs n) t (by omega) (by omega)
      have h5 : ¬ t - c < visDirs n := by omega
      have h6 : t - (c + visDirs n) = t - c - visDirs n := by omega
      simp [toggle_children, h3, h4, toggleNthList, h5, h6]

theorem toggle_by_index_hit (root : Node) (k : Nat) (hk : k < visDirs root) :
    toggle_by_index root k = (toggleNth root k, true) := by
  have h := find_and_toggle_hit root 0 k (Nat.zero_le k) (by omega)
  simp [toggle_by_index, h]

theorem toggle_by_index_miss (root : Node) (k : Nat) (hk : visDirs root ≤ k) :
    toggle_by_index root k = (root, false) := by
  have h := find_and_toggle_miss root 0 k (by omega)
  simp [toggle_by_index, h]

theorem toggle_success_range (root : Node) (k : Nat) (r1 : Node)
    (h : toggle_by_index root k = (r1, true)) : k < visDirs root := by
  by_contra hk
  rw [toggle_by_index_miss root k (by omega)] at h
  simp at h

mutual

theorem visDirs_toggleNth : ∀ (n : Node) (j : Nat),
    j < visDirs n → j < visDirs (toggleNth n j)
  | .file p s, j, h => by simp [visDirs] at h
  | .directory p s e cs, j, h => by
      match j with
      | 0 => simp [toggleNth, visDirs]
      | j + 1 =>
          cases e with
          | false => simp [visDirs] at h
          | true =>
              simp only [visDirs, if_pos] at h
              have h2 := visDirsList_toggleNthList cs j (by omega)
              simp [toggleNth, visDirs]
              omega

theorem visDirsList_toggleNthList : ∀ (ns : List Node) (j : Nat),
    j < visDirsList ns → j < visDirsList (toggleNthList ns j)
  | [], j, h => by simp [visDirsList] at h
  | n :: ns, j, h => by
      simp only [visDirsList] at h
      by_cases hj : j < visDirs n
      · have h2 := visDirs_toggleNth n j hj
        simp [toggleNthList, hj, visDirsList]
        omega
      · have h2 := visDirsList_toggleNthList ns (j - visDirs n) (by omega)
        simp [toggleNthList, hj, visDirsList]
        omega

end

mutual

theorem toggleNth_involutive : ∀ (n : Node) (j : Nat),
    j < visDirs n → toggleNth (toggleNth n j) j = n
  | .file p s, j, h => by simp [visDirs] at h
  | .directory p s e cs, j, h => by
      match j with
      | 0 => simp [toggleNth]
      | j + 1 =>
          cases e with
          | false => simp [visDirs] at h
          | true =>
              simp only [visDirs, if_pos] at h
              have h2 := toggleNthList_involutive cs j (by omega)
              simp [toggleNth, h2]

theorem toggleNthList_involutive : ∀ (ns : List Node) (j : Nat),
    j < visDirsList ns → toggleNthList (toggleNthList ns j) j = ns
  | [], j, h => by simp [visDirsList] at h
  | n :: ns, j, h => by
      simp only [visDirsList] at h
      by_cases hj : j < visDirs n
      · have hj2 := visDirs_toggleNth n j hj
        have h2 := toggleNth_involutive n j hj
        simp [toggleNthList, hj, hj2, h2]
      · have h2 := toggleNthList_involutive ns (j - visDirs n) (by omega)
        simp [toggleNthList, hj, h2]

end

theorem length_assignOrdinals (xs : List (Node × Nat)) (c : Nat) :
    (assignOrdinals xs c).length = xs.length := by
  induction xs generalizing c with
  | nil => simp [assignOrdinals]
  | cons x xs ih =>
      obtain ⟨n, d⟩ := x
      by_cases h : n.is_dir <;> simp [assignOrdinals, h, ih]

theorem filterMap_assignOrdinals (xs : List (Node × Nat)) (c : Nat) :
    (assignOrdinals xs c).filterMap ViewItem.index = List.range' c (dirCount xs) := by
  induction xs generalizing c with
  | nil => simp [assignOrdinals, dirCount]
  | cons x xs ih =>
      obtain ⟨n, d⟩ := x
      by_cases h : n.is_dir
      · have : 1 + dirCount xs = dirCount xs + 1 := by omega
        simp [assignOrdinals, dirCount, h, ih, this, List.range'_succ]
      · simp [assignOrdinals, dirCount, h, ih]

/-- Claim C4: `build_visible_list` is the depth-first pre-order traversal
from the root at depth 0: exactly one ViewItem per visited node in the
pruned pre-order (children walked only below expanded directories, in
the fixed child order, so a collapsed directory contributes one item and
nothing further), directories carrying dense zero-based ordinals in
visit order and files carrying none. -/
theorem build_visible_list_preorder_ordinals (root : Node) :
    build_visible_list root = assignOrdinals (visibleNodes root 0) 0 ∧
    (build_visible_list root).length = (visibleNodes root 0).length ∧
    (build_visible_list root).filterMap ViewItem.index = List.range (visDirs root) := by
  refine ⟨build_visible_list_eq root, ?_, ?_⟩
  · rw [build_visible_list_eq, length_assignOrdinals]
  · rw [build_visible_list_eq, filterMap_assignOrdinals, dirCount_visibleNodes,
      List.range_eq_range']

theorem assignOrdinals_exists_index (xs : List (Node × Nat)) :
    ∀ c k : Nat, c ≤ k → k < c + dirCount xs →
    ∃ it ∈ assignOrdinals xs c, it.index = some k := by
  induction xs with
  | nil =>
      intro c k h1 h2
      simp [dirCount] at h2
      omega
  | cons x xs ih =>
      intro c k h1 h2
      obtain ⟨n, d⟩ := x
      by_cases hd : n.is_dir
      · by_cases hk : k = c
        · exact ⟨⟨some c, n, d⟩, by simp [assignOrdinals, hd], by simp [hk]⟩
        · simp only [dirCount, hd, if_pos] at h2
          obtain ⟨it, hmem, hidx⟩ := ih (c + 1) k (by omega) (by omega)
          exact ⟨it, by simp [assignOrdinals, hd]; exact Or.inr hmem, hidx⟩
      · simp only [dirCount, hd] at h2
        obtain ⟨it, hmem, hidx⟩ := ih c k h1 (by simp at h2; omega)
        exact ⟨it, by simp [assignOrdinals, hd]; exact Or.inr hmem, hidx⟩

/-- Claim C5: when no row of the current visible list carries ordinal
`k` (in particular any `k` at or past the number of visible
directories), `toggle_by_index` returns false and the tree — every
expanded flag included — is returned unchanged. -/
theorem toggle_by_index_stale_false (root : Node) (k : Nat)
    (h : ∀ it ∈ build_visible_list root, it.index ≠ some k) :
    toggle_by_index root k = (root, false) := by
  by_cases hk : k < visDirs root
  · exfalso
    obtain ⟨it, hmem, hidx⟩ := assignOrdinals_exists_index (visibleNodes root 0) 0 k
      (by omega) (by rw [dirCount_visibleNodes]; omega)
    exact h it (by rw [build_visible_list_eq]; exact hmem) hidx
  · exact toggle_by_index_miss root k (by omega)

/-- Witness for C5: ordinal 99 matches nothing in the scenario tree, so
toggling it fails and leaves the tree as it was. -/
theorem toggle_by_index_stale_false_witness :
    toggle_by_index egTree 99 = (egTree, false) := by
  refine toggle_by_index_stale_false egTree 99 ?_
  intro it hit
  have hl : build_visible_list egTree =
      [ ⟨some 0, egTree, 0⟩
      , ⟨some 1, .directory [0, 1] 0 false [], 1⟩
      , ⟨some 2, .directory [0, 2] 2048 false [.file [0, 2, 1] 2048], 1⟩
      , ⟨none, .file [0, 3] 10, 1⟩ ] := rfl
  rw [hl] at hit
  simp only [List.mem_cons, List.not_mem_nil, or_false] at hit
  rcases hit with rfl | rfl | rfl | rfl <;> simp

/-- Claim C6: a successful toggle followed by a second toggle at the
same ordinal, with no rebuild between, restores the tree — in
particular the matched directory's expanded flag — to its prior state. -/
theorem toggle_by_index_round_trip (root : Node) (k : Nat) (r1 : Node)
    (h : toggle_by_index root k = (r1, true)) :
    toggle_by_index r1 k = (root, true) := by
  have hk := toggle_success_range root k r1 h
  have h1 := toggle_by_index_hit root k hk
  have hr : r1 = toggleNth root k := by
    have h2 := h.symm.trans h1
    exact (Prod.mk.injEq _ _ _ _).mp h2 |>.1
  subst hr
  rw [toggle_by_index_hit _ k (visDirs_toggleNth root k hk),
    toggleNth_involutive root k hk]

/-- Witness for C6: toggling ordinal 2 of the scenario tree opens
directory `b`; toggling ordinal 2 again restores the original tree. -/
theorem toggle_by_index_round_trip_witness :
    toggle_by_index egTree 2 = (egTreeB, true) ∧
    toggle_by_index egTreeB 2 = (egTree, true) :=
  ⟨rfl, toggle_by_index_round_trip egTree 2 egTreeB rfl⟩

theorem visibleNodesList_allCollapsed (cs : List Node) (d : Nat)
    (h : allCollapsedList cs = true) :
    visibleNodesList cs d = cs.map fun c => (c, d) := by
  induction cs with
  | nil => simp [visibleNodesList]
  | cons c cs ih =>
      simp only [allCollapsedList, Bool.and_eq_true] at h
      have hc : visibleNodes c d = [(c, d)] := by
        cases c with
        | file p s => simp [visibleNodes]
        | directory p s e cs2 =>
            simp only [allCollapsed, Bool.and_eq_true, Bool.not_eq_true'] at h
            simp [visibleNodes, h.1.1]
      simp [visibleNodesList, hc, ih h.2]

/-- Claim C9: with every directory collapsed the visible list is the
root row alone; with only the root expanded and each of its children
collapsed, the visible list is the root row plus one row per direct
child, files and directories alike. -/
theorem build_visible_list_collapsed_lengths (root : Node) :
    (allCollapsed root = true → (build_visible_list root).length = 1) ∧
    (∀ p s cs, root = Node.directory p s true cs → allCollapsedList cs = true →
      (build_visible_list root).length = 1 + cs.length) := by
  constructor
  · intro h
    rw [build_visible_list_eq, length_assignOrdinals]
    cases root with
    | file p s => simp [visibleNodes]
    | directory p s e cs =>
        simp only [allCollapsed, Bool.and_eq_true, Bool.not_eq_true'] at h
        simp [visibleNodes, h.1]
  · intro p s cs hroot h
    subst hroot
    rw [build_visible_list_eq, length_assignOrdinals]
    simp [visibleNodes, visibleNodesList_allCollapsed cs 1 h]
    omega

/-- Witness for C9: the fully collapsed scan result shows one row; the
scenario tree (root expanded, children collapsed) shows four rows. -/
theorem build_visible_list_collapsed_lengths_witness :
    (allCollapsed egScanned = true ∧ (build_visible_list egScanned).length = 1) ∧
    (allCollapsedList egChildren = true ∧ (build_visible_list egTree).length = 1 + egChildren.length) :=
  ⟨⟨rfl, (build_visible_list_collapsed_lengths egScanned).1 rfl⟩,
   ⟨rfl, (build_visible_list_collapsed_lengths egTree).2 [0] 2058 egChildren rfl rfl⟩⟩

/-- Claim C10: a file root yields exactly one ViewItem, with no ordinal
and depth 0, and every toggle on it fails without changing anything. -/
theorem file_root_behavior (p : FPath) (s k : Nat) :
    build_visible_list (.file p s) = [⟨none, .file p s, 0⟩] ∧
    toggle_by_index (.file p s) k = (.file p s, false) := by
  constructor
  · simp [build_visible_list, scan_recursive]
  · simp [toggle_by_index, find_and_toggle]

mutual

theorem length_visDirPositions : ∀ (n : Node),
    (visDirPositions n).length = visDirs n
  | .file p s => by simp [visDirPositions, visDirs]
  | .directory p s e cs => by
      cases e with
      | false => simp [visDirPositions, visDirs]
      | true =>
          have h := length_visDirPositionsList cs
          simp [visDirPositions, visDirs, h]
          omega

theorem length_visDirPositionsList : ∀ (ns : List Node),
    (visDirPositionsList ns).length = visDirsList ns
  | [] => by simp [visDirPositionsList, visDirsList]
  | n :: ns => by
      have h1 := length_visDirPositions n
      have h2 := length_visDirPositionsList ns
      simp [visDirPositionsList, visDirsList, h1, h2]

end

mutual

theorem length_visibleDirs : ∀ (n : Node),
    (visibleDirs n).length = visDirs n
  | .file p s => by simp [visibleDirs, visDirs]
  | .directory p s e cs => by
      cases e with
      | false => simp [visibleDirs, visDirs]
      | true =>
          have h := length_visibleDirsList cs
          simp [visibleDirs, visDirs, h]
          omega

theorem length_visibleDirsList : ∀ (ns : List Node),
    (visibleDirsList ns).length = visDirsList ns
  | [] => by simp [visibleDirsList, visDirsList]
  | n :: ns => by
      have h1 := length_visibleDirs n
      have h2 := length_visibleDirsList ns
      simp [visibleDirsList, visDirsList, h1, h2]

end

mutual

theorem visibleDirs_is_dir : ∀ (n : Node), ∀ m ∈ visibleDirs n, m.is_dir = true
  | .file p s => by simp [visibleDirs]
  | .directory p s e cs => by
      intro m hm
      cases e with
      | false =>
          simp [visibleDirs] at hm
          simp [hm, Node.is_dir]
      | true =>
          simp only [visibleDirs, if_pos, List.mem_cons] at hm
          rcases hm with rfl | hm
          · simp [Node.is_dir]
          · exact visibleDirsList_is_dir cs m hm

theorem visibleDirsList_is_dir : ∀ (ns : List Node), ∀ m ∈ visibleDirsList ns, m.is_dir = true
  | [] => by simp [visibleDirsList]
  | n :: ns => by
      intro m hm
      simp only [visibleDirsList, List.mem_append] at hm
      rcases hm with hm | hm
      · exact visibleDirs_is_dir n m hm
      · exact visibleDirsList_is_dir ns m hm

end

theorem visDirPositionsList_ne_nil (ns : List Node) :
    ∀ q ∈ visDirPositionsList ns, q ≠ [] := by
  induction ns with
  | nil => simp [visDirPositionsList]
  | cons n ns ih =>
      intro q hq
      simp only [visDirPositionsList, List.mem_append, List.mem_map] at hq
      rcases hq with ⟨q0, _, rfl⟩ | ⟨q0, hq0, rfl⟩
      · simp
      · have := ih q0 hq0
        cases q0 with
        | nil => exact absurd rfl this
        | cons i q1 => simp [bumpHead]

theorem listModify_getElem?_eq (f : Node → Node) :
    ∀ (i : Nat) (xs : List Node), (listModify f i xs)[i]? = (xs[i]?).map f := by
  intro i xs
  induction xs generalizing i with
  | nil => simp [listModify]
  | cons c cs ih =>
      cases i with
      | zero => simp [listModify]
      | succ i => simp [listModify, ih]

theorem listModify_getElem?_ne (f : Node → Node) :
    ∀ (i j : Nat) (xs : List Node), j ≠ i → (listModify f i xs)[j]? = xs[j]? := by
  intro i j xs
  induction xs generalizing i j with
  | nil => simp [listModify]
  | cons c cs ih =>
      intro hne
      cases i with
      | zero =>
          cases j with
          | zero => exact absurd rfl hne
          | succ j => simp [listModify]
      | succ i =>
          cases j with
          | zero => simp [listModify]
          | succ j => simp [listModify, ih i j (by omega)]

theorem visDirPositions_spec : ∀ (n : Node), ∀ (j : Nat), j < visDirs n →
    nodeAt (((visDirPositions n)[j]?).getD []) n = (visibleDirs n)[j]? ∧
    toggleNth n j = flipAt (((visDirPositions n)[j]?).getD []) n := by
  refine @Node.rec
    (fun n => ∀ j : Nat, j < visDirs n →
      nodeAt (((visDirPositions n)[j]?).getD []) n = (visibleDirs n)[j]? ∧
      toggleNth n j = flipAt (((visDirPositions n)[j]?).getD []) n)
    (fun ns => ∀ j : Nat, j < visDirsList ns →
      nodeAtList (((visDirPositionsList ns)[j]?).getD []) ns = (visibleDirsList ns)[j]? ∧
      toggleNthList ns j = flipInList (((visDirPositionsList ns)[j]?).getD []) ns)
    ?_ ?_ ?_ ?_
  · intro p s j hj
    simp [visDirs] at hj
  · intro p s e cs ih j hj
    cases j with
    | zero =>
        constructor
        · simp [visDirPositions, nodeAt, visibleDirs]
        · simp [visDirPositions, toggleNth, flipAt, Node.toggle]
    | succ j =>
        cases e with
        | false => simp [visDirs] at hj
        | true =>
            simp only [visDirs, if_pos] at hj
            have hj2 : j < visDirsList cs := by omega
            have hlen : j < (visDirPositionsList cs).length := by
              rw [length_visDirPositionsList]; omega
            have hq0 := List.getElem?_eq_getElem hlen
            set q0 := (visDirPositionsList cs)[j] with hq0def
            have hne := visDirPositionsList_ne_nil cs q0
              (by rw [hq0def]; exact List.getElem_mem hlen)
            obtain ⟨i, q, hiq⟩ : ∃ i q2, q0 = i :: q2 := by
              cases hcase : q0 with
              | nil => exact absurd hcase hne
              | cons i q2 => exact ⟨i, q2, rfl⟩
            obtain ⟨ihA, ihB⟩ := ih j hj2
            rw [hq0, hiq] at ihA ihB
            simp only [Option.getD_some] at ihA ihB
            constructor
            · simp only [visDirPositions, if_pos, List.getElem?_cons_succ, hq0, hiq,
                Option.getD_some, visibleDirs]
              simp only [nodeAtList] at ihA
              simp [nodeAt, ihA]
            · simp only [visDirPositions, if_pos, List.getElem?_cons_succ, hq0, hiq,
                Option.getD_some]
              simp only [flipInList] at ihB
              simp [toggleNth, ihB, flipAt]
  · intro j hj
    simp [visDirsList] at hj
  · intro n ns ih1 ih2 j hj
    simp only [visDirsList] at hj
    by_cases hcase : j < visDirs n
    · have hlen1 : j < ((visDirPositions n).map (fun q => 0 :: q)).length := by
        simp [length_visDirPositions]; omega
      have hlenn : j < (visDirPositions n).length := by rw [length_visDirPositions]; omega
      have hsplit : (visDirPositionsList (n :: ns))[j]?
          = (((visDirPositions n)[j]?).map (fun q => 0 :: q)) := by
        simp only [visDirPositionsList]
        rw [List.getElem?_append_left hlen1, List.getElem?_map]
      have hq0 := List.getElem?_eq_getElem hlenn
      set q0 := (visDirPositions n)[j] with hq0def
      obtain ⟨ihA, ihB⟩ := ih1 j hcase
      rw [hq0] at ihA ihB
      simp only [Option.getD_some] at ihA ihB
      constructor
      · simp only [hsplit, hq0] 
        simp only [Option.map_some', Option.getD_some, nodeAtList,
          List.getElem?_cons_zero, Option.some_bind]
        rw [ihA]
        simp only [visibleDirsList]
        rw [List.getElem?_append_left (by rw [length_visibleDirs]; omega)]
      · simp only [hsplit, hq0, Option.map_some', Option.getD_some]
        simp [toggleNthList, hcase, ihB, flipInList, listModify]
    · have hj2 : j - visDirs n < visDirsList ns := by omega
      have hlen1 : ((visDirPositions n).map (fun q => 0 :: q)).length ≤ j := by
        simp [length_visDirPositions]; omega
      have hlenn : j - visDirs n < (visDirPositionsList ns).length := by
        rw [length_visDirPositionsList]; omega
      have hsplit : (visDirPositionsList (n :: ns))[j]?
          = ((visDirPositionsList ns)[j - visDirs n]?).map bumpHead := by
        simp only [visDirPositionsList]
        rw [List.getElem?_append_right hlen1, List.getElem?_map]
        simp [length_visDirPositions]
      have hq0 := List.getElem?_eq_getElem hlenn
      set q0 := (visDirPositionsList ns)[j - visDirs n] with hq0def
      have hne := visDirPositionsList_ne_nil ns q0
        (by rw [hq0def]; exact List.getElem_mem hlenn)
      obtain ⟨i, q, hiq⟩ : ∃ i q2, q0 = i :: q2 := by
        cases hcase2 : q0 with
        | nil => exact absurd hcase2 hne
        | cons i q2 => exact ⟨i, q2, rfl⟩
      obtain ⟨ihA, ihB⟩ := ih2 (j - visDirs n) hj2
      rw [hq0, hiq] at ihA ihB
      simp only [Option.getD_some] at ihA ihB
      constructor
      · simp only [hsplit, hq0, hiq, Option.map_some', Option.getD_some, bumpHead,
          nodeAtList, List.getElem?_cons_succ]
        simp only [nodeAtList] at ihA
        rw [ihA]
        simp only [visibleDirsList]
        rw [List.getElem?_append_right (by rw [length_visibleDirs]; omega),
          length_visibleDirs]
      · simp only [hsplit, hq0, hiq, Option.map_some', Option.getD_some, bumpHead]
        simp only [flipInList] at ihB
        simp [toggleNthList, hcase, ihB, flipInList, listModify]

mutual

theorem dirsOfRows_visibleNodes : ∀ (n : Node) (d : Nat),
    ((visibleNodes n d).map Prod.fst).filter (fun m => m.is_dir) = visibleDirs n
  | .file p s, d => by simp [visibleNodes, visibleDirs, Node.is_dir]
  | .directory p s e cs, d => by
      cases e with
      | false => simp [visibleNodes, visibleDirs, Node.is_dir]
      | true =>
          have h := dirsOfRows_visibleNodesList cs (d + 1)
          simp only [visibleNodes, if_pos, List.map_cons, visibleDirs]
          rw [List.filter_cons_of_pos (by simp [Node.is_dir]), h]

theorem dirsOfRows_visibleNodesList : ∀ (ns : List Node) (d : Nat),
    ((visibleNodesList ns d).map Prod.fst).filter (fun m => m.is_dir) = visibleDirsList ns
  | [], d => by simp [visibleNodesList, visibleDirsList]
  | n :: ns, d => by
      have h1 := dirsOfRows_visibleNodes n d
      have h2 := dirsOfRows_visibleNodesList ns d
      simp [visibleNodesList, visibleDirsList, h1, h2]

end

theorem assignOrdinals_index_mem (xs : List (Node × Nat)) :
    ∀ (c k : Nat) (it : ViewItem), it ∈ assignOrdinals xs c → it.index = some k →
    c ≤ k ∧ k - c < dirCount xs ∧
    ((xs.map Prod.fst).filter fun m => m.is_dir)[k - c]? = some it.node ∧
    it.node.is_dir = true := by
  induction xs with
  | nil =>
      intro c k it hmem _
      simp [assignOrdinals] at hmem
  | cons x xs ih =>
      intro c k it hmem hidx
      obtain ⟨n, d⟩ := x
      by_cases hd : n.is_dir
      · simp only [assignOrdinals, hd, if_pos, List.mem_cons] at hmem
        rcases hmem with rfl | hmem
        · have hk : c = k := by simpa using hidx
          refine ⟨by omega, by simp [dirCount, hd]; omega, ?_, hd⟩
          simp [hd, ← hk]
        · obtain ⟨h1, h2, h3, h4⟩ := ih (c + 1) k it hmem hidx
          refine ⟨by omega, by simp [dirCount, hd]; omega, ?_, h4⟩
          have hsub : k - c = (k - (c + 1)) + 1 := by omega
          simp [hd, hsub, h3]
      · simp only [assignOrdinals, hd, if_neg, Bool.false_eq_true, not_false_eq_true,
          List.mem_cons] at hmem
        rcases hmem with rfl | hmem
        · simp at hidx
        · obtain ⟨h1, h2, h3, h4⟩ := ih c k it hmem hidx
          refine ⟨h1, by simp [dirCount, hd]; omega, ?_, h4⟩
          simp [hd, h3]

/-- Claim C1: when a render emits a ViewItem giving ordinal `k` to a
directory, `toggle_by_index` called next with `k` succeeds and flips the
expanded flag of exactly that directory: there is a tree position (the
`k`-th visible-directory position) holding precisely the emitted node,
and the returned tree is the original with the flag at that one position
flipped — the two separate walks assign ordinals identically. -/
theorem toggle_by_index_matches_build (root : Node) (k : Nat) (it : ViewItem)
    (h1 : it ∈ build_visible_list root) (h2 : it.index = some k) :
    it.node.is_dir = true ∧
    nodeAt (((visDirPositions root)[k]?).getD []) root = some it.node ∧
    toggle_by_index root k = (flipAt (((visDirPositions root)[k]?).getD []) root, true) := by
  rw [build_visible_list_eq] at h1
  obtain ⟨hc, hlt, hget, hdir⟩ := assignOrdinals_index_mem (visibleNodes root 0) 0 k it h1 h2
  rw [dirCount_visibleNodes] at hlt
  simp only [Nat.sub_zero] at hlt hget
  rw [dirsOfRows_visibleNodes root 0] at hget
  obtain ⟨hA, hB⟩ := visDirPositions_spec root k hlt
  refine ⟨hdir, ?_, ?_⟩
  · rw [hA, hget]
  · rw [toggle_by_index_hit root k hlt, hB]

/-- Witness for C1: in the scenario tree, the row for directory `b`
carries ordinal 2, and toggling ordinal 2 flips exactly the node at the
matching visible-directory position. -/
theorem toggle_by_index_matches_build_witness :
    (⟨some 2, .directory [0, 2] 2048 false [.file [0, 2, 1] 2048], 1⟩ : ViewItem)
        ∈ build_visible_list egTree ∧
    toggle_by_index egTree 2
      = (flipAt (((visDirPositions egTree)[2]?).getD []) egTree, true) := by
  have hl : build_visible_list egTree =
      [ ⟨some 0, egTree, 0⟩
      , ⟨some 1, .directory [0, 1] 0 false [], 1⟩
      , ⟨some 2, .directory [0, 2] 2048 false [.file [0, 2, 1] 2048], 1⟩
      , ⟨none, .file [0, 3] 10, 1⟩ ] := rfl
  have hm : (⟨some 2, .directory [0, 2] 2048 false [.file [0, 2, 1] 2048], 1⟩ : ViewItem)
      ∈ build_visible_list egTree := by
    rw [hl]
    exact List.mem_cons_of_mem _ (List.mem_cons_of_mem _ (List.mem_cons_self _ _))
  exact ⟨hm, (toggle_by_index_matches_build egTree 2 _ hm rfl).2.2⟩

theorem stripExpanded_listModify (f : Node → Node)
    (hf : ∀ x, stripExpanded (f x) = stripExpanded x) :
    ∀ (i : Nat) (cs : List Node),
    stripExpandedList (listModify f i cs) = stripExpandedList cs := by
  intro i cs
  induction cs generalizing i with
  | nil => simp [listModify]
  | cons c cs ih =>
      cases i with
      | zero => simp [listModify, stripExpandedList, hf]
      | succ i => simp [listModify, stripExpandedList, ih]

theorem stripExpanded_flipAt : ∀ (q : List Nat) (n : Node),
    stripExpanded (flipAt q n) = stripExpanded n := by
  intro q
  induction q with
  | nil =>
      intro n
      cases n <;> simp [flipAt, Node.toggle, stripExpanded]
  | cons i q ih =>
      intro n
      cases n with
      | file p s => simp [flipAt]
      | directory p s e cs =>
          simp [flipAt, stripExpanded, stripExpanded_listModify (flipAt q) ih i cs]

theorem expandedAt_flipAt_ne : ∀ (p q : List Nat) (n : Node), q ≠ p →
    expandedAt q (flipAt p n) = expandedAt q n := by
  intro p
  induction p with
  | nil =>
      intro q n hq
      cases q with
      | nil => exact absurd rfl hq
      | cons j q2 =>
          cases n with
          | file p s => simp [flipAt, Node.toggle]
          | directory p s e cs => simp [flipAt, Node.toggle, expandedAt, nodeAt]
  | cons i p ih =>
      intro q n hq
      cases n with
      | file pp s => simp [flipAt]
      | directory pp s e cs =>
          cases q with
          | nil => simp [flipAt, expandedAt, nodeAt, Node.is_expanded]
          | cons j q2 =>
              simp only [flipAt, expandedAt, nodeAt]
              by_cases hji : j = i
              · subst hji
                have hq2 : q2 ≠ p := by
                  intro hc
                  exact hq (by rw [hc])
                rw [listModify_getElem?_eq]
                cases hcs : cs[j]? with
                | none => simp
                | some c =>
                    simp only [Option.map_some', Option.some_bind]
                    have h3 := ih q2 c hq2
                    simp only [expandedAt] at h3
                    simpa using h3
              · rw [listModify_getElem?_ne _ i j cs hji]

theorem expandedAt_flipAt_self : ∀ (p : List Nat) (n m : Node),
    nodeAt p n = some m → m.is_dir = true →
    expandedAt p (flipAt p n) = some (!m.is_expanded) ∧
    expandedAt p n = some m.is_expanded := by
  intro p
  induction p with
  | nil =>
      intro n m hm hdir
      obtain rfl : n = m := by simpa [nodeAt] using hm
      cases n with
      | file p s => simp [Node.is_dir] at hdir
      | directory p s e cs =>
          simp [flipAt, Node.toggle, expandedAt, nodeAt, Node.is_expanded]
  | cons i p ih =>
      intro n m hm hdir
      cases n with
      | file pp s => simp [nodeAt] at hm
      | directory pp s e cs =>
          simp only [nodeAt] at hm
          cases hcs : cs[i]? with
          | none => rw [hcs] at hm; simp at hm
          | some c =>
              rw [hcs] at hm
              simp only [Option.some_bind] at hm
              obtain ⟨hflip, horig⟩ := ih c m hm hdir
              constructor
              · simp only [flipAt, expandedAt, nodeAt]
                rw [listModify_getElem?_eq, hcs]
                simp only [Option.map_some', Option.some_bind]
                simpa [expandedAt] using hflip
              · simp only [expandedAt, nodeAt]
                rw [hcs]
                simp only [Option.some_bind]
                simpa [expandedAt] using horig

/-- Claim C7: a successful toggle changes nothing but the matched
directory's expanded flag: the flag-erased trees coincide (paths, sizes
and child structure untouched), every position other than the matched
one keeps its expand flag (descendants included), and the matched
position's flag is exactly negated. -/
theorem toggle_by_index_frame (root : Node) (k : Nat) (r1 : Node)
    (h : toggle_by_index root k = (r1, true)) :
    stripExpanded r1 = stripExpanded root ∧
    (∀ q : List Nat, q ≠ ((visDirPositions root)[k]?).getD [] →
      expandedAt q r1 = expandedAt q root) ∧
    (∃ b : Bool, expandedAt (((visDirPositions root)[k]?).getD []) root = some b ∧
      expandedAt (((visDirPositions root)[k]?).getD []) r1 = some (!b)) := by
  have hk := toggle_success_range root k r1 h
  have h1 := toggle_by_index_hit root k hk
  have hr : r1 = toggleNth root k := by
    have h2 := h.symm.trans h1
    exact (Prod.mk.injEq _ _ _ _).mp h2 |>.1
  obtain ⟨hA, hB⟩ := visDirPositions_spec root k hk
  have hklen : k < (visibleDirs root).length := by rw [length_visibleDirs]; omega
  have hm : nodeAt (((visDirPositions root)[k]?).getD []) root
      = some ((visibleDirs root)[k]) := by
    rw [hA, List.getElem?_eq_getElem hklen]
  have hmdir : ((visibleDirs root)[k]).is_dir = true :=
    visibleDirs_is_dir root _ (List.getElem_mem hklen)
  subst hr
  rw [hB]
  obtain ⟨hflip, horig⟩ :=
    expandedAt_flipAt_self (((visDirPositions root)[k]?).getD []) root _ hm hmdir
  exact ⟨stripExpanded_flipAt _ root,
    fun q hq => expandedAt_flipAt_ne _ q root hq,
    ⟨_, horig, hflip⟩⟩

/-- Witness for C7: toggling ordinal 2 of the scenario tree preserves
the flag-erased tree, keeps every other position's flag, and negates the
flag at the matched position. -/
theorem toggle_by_index_frame_witness :
    toggle_by_index egTree 2 = (egTreeB, true) ∧
    stripExpanded egTreeB = stripExpanded egTree :=
  ⟨rfl, (toggle_by_index_frame egTree 2 egTreeB rfl).1⟩

/-!
Lemmas for the scanner: the comparator is a total preorder, the stable
insertion sort is a permutation producing pairwise-ordered output, and
the scan results satisfy the size and ordering invariants.
-/

theorem mem_insertSorted (x y : Node) : ∀ ys, y ∈ insertSorted x ys ↔ y = x ∨ y ∈ ys := by
  intro ys
  induction ys with
  | nil => simp [insertSorted]
  | cons z zs ih =>
      by_cases h : childCmp x z = .gt
      · simp [insertSorted, h, ih]
        tauto
      · simp [insertSorted, h]

theorem mem_sortChildren (y : Node) : ∀ xs, y ∈ sortChildren xs ↔ y ∈ xs := by
  intro xs
  induction xs with
  | nil => simp [sortChildren]
  | cons x xs ih => simp [sortChildren, mem_insertSorted, ih]

theorem pathCmp_eq_iff : ∀ a b : FPath, pathCmp a b = .eq ↔ a = b := by
  intro a
  induction a with
  | nil => intro b; cases b <;> simp [pathCmp]
  | cons x a ih =>
      intro b
      cases b with
      | nil => simp [pathCmp]
      | cons y b =>
          by_cases h1 : x < y
          · simp [pathCmp, h1]
            omega
          · by_cases h2 : y < x
            · simp [pathCmp, h1, h2]
              omega
            · have hxy : x = y := by omega
              simp [pathCmp, h1, h2, ih, hxy]

theorem pathCmp_swap : ∀ a b : FPath, pathCmp b a = (pathCmp a b).swap := by
  intro a
  induction a with
  | nil => intro b; cases b <;> simp [pathCmp, Ordering.swap]
  | cons x a ih =>
      intro b
      cases b with
      | nil => simp [pathCmp, Ordering.swap]
      | cons y b =>
          by_cases h1 : x < y
          · have h2 : ¬ y < x := by omega
            simp [pathCmp, h1, h2, Ordering.swap]
          · by_cases h2 : y < x
            · simp [pathCmp, h1, h2, Ordering.swap]
            · simp [pathCmp, h1, h2, ih]

theorem pathCmp_lt_trans : ∀ a b c : FPath,
    pathCmp a b = .lt → pathCmp b c = .lt → pathCmp a c = .lt := by
  intro a
  induction a with
  | nil =>
      intro b c hab hbc
      cases b with
      | nil => simp [pathCmp] at hab
      | cons y b =>
          cases c with
          | nil => simp [pathCmp] at hbc
          | cons z c => simp [pathCmp]
  | cons x a ih =>
      intro b c hab hbc
      cases b with
      | nil => simp [pathCmp] at hab
      | cons y b =>
          cases c with
          | nil => simp [pathCmp] at hbc
          | cons z c =>
              simp only [pathCmp] at hab hbc ⊢
              by_cases h1 : x < y
              · by_cases h2 : y < z
                · have : x < z := by omega
                  simp [this]
                · by_cases h3 : z < y
                  · simp [h2, h3] at hbc
                  · have hyz : y = z := by omega
                    have : x < z := by omega
                    simp [this]
              · by_cases h1b : y < x
                · simp [h1, h1b] at hab
                · have hxy : x = y := by omega
                  subst hxy
                  by_cases h2 : x < z
                  · simp [h2]
                  · by_cases h3 : z < x
                    · simp [h2, h3] at hbc
                    · simp [h2, h3] at hbc ⊢
                      exact ih b c (by simpa [h1] using hab) hbc

theorem ordering_ne_gt (o : Ordering) : o ≠ .gt ↔ o = .lt ∨ o = .eq := by
  cases o <;> simp

theorem pathCmp_le_trans : ∀ a b c : FPath,
    pathCmp a b ≠ .gt → pathCmp b c ≠ .gt → pathCmp a c ≠ .gt := by
  intro a b c hab hbc
  rw [ordering_ne_gt] at hab hbc ⊢
  rcases hab with hab | hab
  · rcases hbc with hbc | hbc
    · exact Or.inl (pathCmp_lt_trans a b c hab hbc)
    · rw [pathCmp_eq_iff] at hbc
      subst hbc
      exact Or.inl hab
  · rw [pathCmp_eq_iff] at hab
    subst hab
    rcases hbc with hbc | hbc
    · exact Or.inl hbc
    · exact Or.inr hbc

theorem childCmp_swap : ∀ a b : Node, childCmp b a = (childCmp a b).swap := by
  intro a b
  cases a with
  | file p s =>
      cases b with
      | file q t =>
          simp only [childCmp, Node.path]
          exact pathCmp_swap p q
      | directory q t e cs => simp [childCmp, Ordering.swap]
  | directory p s e cs =>
      cases b with
      | file q t => simp [childCmp, Ordering.swap]
      | directory q t e2 cs2 =>
          simp only [childCmp, Node.path]
          exact pathCmp_swap p q

theorem childCmp_le_trans : ∀ a b c : Node,
    childCmp a b ≠ .gt → childCmp b c ≠ .gt → childCmp a c ≠ .gt := by
  intro a b c hab hbc
  cases a with
  | file pa sa =>
      cases b with
      | directory pb sb eb csb => simp [childCmp] at hab
      | file pb sb =>
          cases c with
          | directory pc sc ec csc => simp [childCmp] at hbc
          | file pc sc =>
              simp only [childCmp, Node.path] at hab hbc ⊢
              exact pathCmp_le_trans pa pb pc hab hbc
  | directory pa sa ea csa =>
      cases c with
      | file pc sc => simp [childCmp]
      | directory pc sc ec csc =>
          cases b with
          | file pb sb => simp [childCmp] at hbc
          | directory pb sb eb csb =>
              simp only [childCmp, Node.path] at hab hbc ⊢
              exact pathCmp_le_trans pa pb pc hab hbc

theorem pairwise_insertSorted (x : Node) : ∀ ys : List Node,
    ys.Pairwise (fun a b => childCmp a b ≠ .gt) →
    (insertSorted x ys).Pairwise (fun a b => childCmp a b ≠ .gt) := by
  intro ys
  induction ys with
  | nil =>
      intro _
      simp [insertSorted]
  | cons z zs ih =>
      intro h
      rw [List.pairwise_cons] at h
      obtain ⟨hz, hzs⟩ := h
      by_cases hc : childCmp x z = .gt
      · simp only [insertSorted, hc, if_pos]
        rw [List.pairwise_cons]
        refine ⟨?_, ih hzs⟩
        intro w hw
        rw [mem_insertSorted] at hw
        rcases hw with rfl | hw
        · rw [childCmp_swap, hc]
          simp [Ordering.swap]
        · exact hz w hw
      · simp only [insertSorted, hc, if_neg, not_false_eq_true]
        rw [List.pairwise_cons]
        refine ⟨?_, by rw [List.pairwise_cons]; exact ⟨hz, hzs⟩⟩
        intro w hw
        simp only [List.mem_cons] at hw
        rcases hw with rfl | hw
        · exact hc
        · exact childCmp_le_trans x z w hc (hz w hw)

theorem pairwise_sortChildren : ∀ xs : List Node,
    (sortChildren xs).Pairwise (fun a b => childCmp a b ≠ .gt) := by
  intro xs
  induction xs with
  | nil => simp [sortChildren]
  | cons x xs ih => exact pairwise_insertSorted x (sortChildren xs) ih

theorem childrenOrdered_sortChildren (xs : List Node) :
    childrenOrdered (sortChildren xs) := by
  refine (pairwise_sortChildren xs).imp ?_
  intro a b hab
  cases a with
  | file pa sa =>
      cases b with
      | directory pb sb eb csb => simp [childCmp] at hab
      | file pb sb =>
          simp only [childCmp, Node.path] at hab
          exact ⟨fun _ => rfl, fun _ => hab⟩
  | directory pa sa ea csa =>
      cases b with
      | file pb sb =>
          refine ⟨?_, ?_⟩
          · intro hcontra
            simp [Node.is_dir] at hcontra
          · intro hcontra
            simp [Node.is_dir] at hcontra
      | directory pb sb eb csb =>
          simp only [childCmp, Node.path] at hab
          exact ⟨fun hcontra => by simp [Node.is_dir] at hcontra, fun _ => hab⟩

theorem sizeOkList_iff : ∀ cs : List Node, sizeOkList cs = true ↔ ∀ c ∈ cs, sizeOk c = true := by
  intro cs
  induction cs with
  | nil => simp [sizeOkList]
  | cons c cs ih => simp [sizeOkList, ih]

theorem sortedTreeList_iff : ∀ cs : List Node, sortedTreeList cs ↔ ∀ c ∈ cs, sortedTree c := by
  intro cs
  induction cs with
  | nil => simp [sortedTreeList]
  | cons c cs ih => simp [sortedTreeList, ih]

theorem scanFs_sizeOk : ∀ (fs : Fs) (n : Node), scanFs fs = .ok n → sizeOk n = true := by
  refine @Fs.rec
    (fun fs => ∀ n, scanFs fs = .ok n → sizeOk n = true)
    (fun es => ∀ cs, scanEntries es = .ok cs → sizeOkList cs = true)
    (fun o => ∀ fs, o = some fs → ∀ n, scanFs fs = .ok n → sizeOk n = true)
    ?_ ?_ ?_ ?_ ?_ ?_ ?_ ?_
  · intro p len n h
    simp only [scanFs, Except.ok.injEq] at h
    subst h
    simp [sizeOk]
  · intro p es ih n h
    simp only [scanFs] at h
    cases hse : scanEntries es with
    | error u => rw [hse] at h; simp at h
    | ok children =>
        rw [hse] at h
        simp only [Except.ok.injEq] at h
        subst h
        simp only [sizeOk, Bool.and_eq_true, beq_iff_eq]
        refine ⟨trivial, ?_⟩
        rw [sizeOkList_iff]
        intro c hc
        rw [mem_sortChildren] at hc
        exact (sizeOkList_iff children).mp (ih children hse) c hc
  · intro p n h
    simp [scanFs] at h
  · intro p n h
    simp [scanFs] at h
  · intro cs h
    simp only [scanEntries, Except.ok.injEq] at h
    subst h
    simp [sizeOkList]
  · intro head tail ih3 ih2 cs h
    cases head with
    | none => simp [scanEntries] at h
    | some fs =>
        simp only [scanEntries] at h
        cases hsf : scanFs fs with
        | error u =>
            rw [hsf] at h
            exact ih2 cs h
        | ok child =>
            rw [hsf] at h
            cases hse : scanEntries tail with
            | error u => rw [hse] at h; simp at h
            | ok cs2 =>
                rw [hse] at h
                simp only [Except.ok.injEq] at h
                subst h
                simp only [sizeOkList, Bool.and_eq_true]
                exact ⟨ih3 fs rfl child hsf, ih2 cs2 hse⟩
  · intro fs h
    simp at h
  · intro val ih fs h
    obtain rfl := Option.some.inj h
    exact ih

/-- Claim C2: every tree the scanner produces satisfies the size
invariant — each directory's size is the sum of its direct children's
sizes, recursively down to the leaves — and a file node's size is the
byte length the filesystem reported for it. -/
theorem scan_size_invariant (fs : Fs) (n : Node) (h : scanFs fs = .ok n) :
    sizeOk n = true ∧ (∀ p len, fs = Fs.file p len → n = Node.file p len) := by
  refine ⟨scanFs_sizeOk fs n h, ?_⟩
  intro p len hfs
  subst hfs
  simp only [scanFs, Except.ok.injEq] at h
  exact h.symm

/-- Witness for C2: scanning the scenario filesystem yields the scenario
tree (root size 2058 = 0 + 2048 + 10), which satisfies the invariant. -/
theorem scan_size_invariant_witness :
    scanFs egFs = .ok egScanned ∧ sizeOk egScanned = true := by
  have h : scanFs egFs = .ok egScanned := by
    simp [egFs, egScanned, scanFs, scanEntries, sortChildren, insertSorted,
      childCmp, pathCmp, Node.path, Node.size]
  exact ⟨h, (scan_size_invariant egFs egScanned h).1⟩

theorem scanFs_sorted : ∀ (fs : Fs) (n : Node), scanFs fs = .ok n → sortedTree n := by
  refine @Fs.rec
    (fun fs => ∀ n, scanFs fs = .ok n → sortedTree n)
    (fun es => ∀ cs, scanEntries es = .ok cs → sortedTreeList cs)
    (fun o => ∀ fs, o = some fs → ∀ n, scanFs fs = .ok n → sortedTree n)
    ?_ ?_ ?_ ?_ ?_ ?_ ?_ ?_
  · intro p len n h
    simp only [scanFs, Except.ok.injEq] at h
    subst h
    simp [sortedTree]
  · intro p es ih n h
    simp only [scanFs] at h
    cases hse : scanEntries es with
    | error u => rw [hse] at h; simp at h
    | ok children =>
        rw [hse] at h
        simp only [Except.ok.injEq] at h
        subst h
        simp only [sortedTree]
        refine ⟨childrenOrdered_sortChildren children, ?_⟩
        rw [sortedTreeList_iff]
        intro c hc
        rw [mem_sortChildren] at hc
        exact (sortedTreeList_iff children).mp (ih children hse) c hc
  · intro p n h
    simp [scanFs] at h
  · intro p n h
    simp [scanFs] at h
  · intro cs h
    simp only [scanEntries, Except.ok.injEq] at h
    subst h
    simp [sortedTreeList]
  · intro head tail ih3 ih2 cs h
    cases head with
    | none => simp [scanEntries] at h
    | some fs =>
        simp only [scanEntries] at h
        cases hsf : scanFs fs with
        | error u =>
            rw [hsf] at h
            exact ih2 cs h
        | ok child =>
            rw [hsf] at h
            cases hse : scanEntries tail with
            | error u => rw [hse] at h; simp at h
            | ok cs2 =>
                rw [hse] at h
                simp only [Except.ok.injEq] at h
                subst h
                simp only [sortedTreeList]
                exact ⟨ih3 fs rfl child hsf, ih2 cs2 hse⟩
  · intro fs h
    simp at h
  · intro val ih fs h
    obtain rfl := Option.some.inj h
    exact ih

/-- Claim C3: in every tree the scanner produces, each directory's child
sequence places every directory child before every file child, with
paths non-decreasing inside each of the two groups, recursively at every
level. -/
theorem scan_children_sorted (fs : Fs) (n : Node) (h : scanFs fs = .ok n) :
    sortedTree n :=
  scanFs_sorted fs n h

/-- Witness for C3: the scenario filesystem lists its entries out of
order; the scanned tree is sorted directories-first then by path. -/
theorem scan_children_sorted_witness :
    scanFs egFs = .ok egScanned ∧ sortedTree egScanned := by
  have h : scanFs egFs = .ok egScanned := by
    simp [egFs, egScanned, scanFs, scanEntries, sortChildren, insertSorted,
      childCmp, pathCmp, Node.path, Node.size]
  exact ⟨h, scan_children_sorted egFs egScanned h⟩

theorem scanFs_error_iff : ∀ fs : Fs, scanFs fs = .error () ↔ scanFails fs = true := by
  refine @Fs.rec
    (fun fs => scanFs fs = .error () ↔ scanFails fs = true)
    (fun es => scanEntries es = .error () ↔ es.any Option.isNone = true)
    (fun _ => True)
    ?_ ?_ ?_ ?_ ?_ ?_ ?_ ?_
  · intro p len
    simp [scanFs, scanFails]
  · intro p es ih
    simp only [scanFails]
    constructor
    · intro h
      simp only [scanFs] at h
      cases hse : scanEntries es with
      | error u =>
          cases u
          exact ih.mp hse
      | ok children => rw [hse] at h; simp at h
    · intro h
      have herr := ih.mpr h
      simp only [scanFs, herr]
  · intro p
    simp [scanFs, scanFails]
  · intro p
    simp [scanFs, scanFails]
  · simp [scanEntries]
  · intro head tail _ ih2
    cases head with
    | none => simp [scanEntries]
    | some fs =>
        simp only [scanEntries, List.any_cons, Option.isNone_some, Bool.false_or]
        cases hsf : scanFs fs with
        | error u => exact ih2
        | ok child =>
            constructor
            · intro h
              cases hse : scanEntries tail with
              | error u =>
                  cases u
                  exact ih2.mp hse
              | ok cs2 => rw [hse] at h; simp at h
            · intro h
              have herr := ih2.mpr h
              rw [herr]
  · trivial
  · intro val _
    trivial

theorem scanEntries_skip (fsc : Fs) (hfail : scanFs fsc = .error ()) :
    ∀ (before after : List (Option Fs)),
    scanEntries (before ++ some fsc :: after) = scanEntries (before ++ after) := by
  intro before after
  induction before with
  | nil =>
      simp only [List.nil_append, scanEntries, hfail]
  | cons head before ih =>
      cases head with
      | none => simp [scanEntries]
      | some fs =>
          simp only [List.cons_append, scanEntries, List.append_eq]
          rw [ih]

/-- Claim C8, amended: the scan fails exactly when the root itself
cannot be scanned — its metadata cannot be stat'ed, its directory
listing cannot be opened, or iterating the listing yields an error item
— while a non-root entry whose own recursive scan fails is omitted from
the resulting tree (contributing nothing to sizes or counts) and the
scan of the remaining sibling entries continues unchanged. -/
theorem scan_failure_behavior (fs : Fs) :
    (scanFs fs = .error () ↔ scanFails fs = true) ∧
    (∀ (before after : List (Option Fs)) (fsc : Fs), scanFs fsc = .error () →
      scanEntries (before ++ some fsc :: after) = scanEntries (before ++ after)) :=
  ⟨scanFs_error_iff fs, fun before after fsc hfail => scanEntries_skip fsc hfail before after⟩

/-- Counterexample for C8 as stated: a root directory whose metadata is
readable but whose listing cannot be opened (`read_dir` fails after
`metadata` succeeds, line 111 of `src/model.rs`) makes the scan fail
even though the root can be stat'ed, so "fails exactly when the root
cannot be stat'ed" is false. -/
theorem scan_root_failure_counterexample :
    scanFs (Fs.readErr []) = .error () ∧ ∀ p : FPath, Fs.readErr [] ≠ Fs.statErr p := by
  refine ⟨by simp [scanFs], ?_⟩
  intro p h
  exact Fs.noConfusion h

/-- Witness for C8: a sibling whose metadata cannot be read is skipped —
the surrounding entries scan exactly as if it were absent. -/
theorem scan_failure_behavior_witness :
    scanFs (Fs.statErr [9]) = .error () ∧
    scanEntries [some (.file [1] 1), some (Fs.statErr [9]), some (.file [2] 2)]
      = scanEntries [some (.file [1] 1), some (.file [2] 2)] := by
  have hfail : scanFs (Fs.statErr [9]) = .error () := by simp [scanFs]
  exact ⟨hfail, (scan_failure_behavior (Fs.statErr [9])).2
    [some (.file [1] 1)] [some (.file [2] 2)] (Fs.statErr [9]) hfail⟩
